import Mathlib

/-!
Shallow embedding of src/src/rcpp_EMprec.cpp (package EMgaussian): the EM
iteration core for a multivariate Gaussian with missing data, under the
precision-matrix parameterization.

Data entries are modelled by `Entry`: a finite rational value, or one of the
three non-finite IEEE values (NaN, +Inf, -Inf) that Armadillo's
find_finite / find_nonfinite classify as non-finite.  Real arithmetic is
modelled over ℚ; the transcendental functions `log` and the constant
`log(2*pi)` of the likelihood are abstracted as parameters `L : ℚ → ℚ` and
`c : ℚ`, since the spec treats them as correct library primitives.
Armadillo's `inv`, which throws a runtime error on a singular argument, is
modelled by a guard on the determinant, propagated as `Option`.
-/

namespace EMgaussian

/-- One cell of the data matrix: a finite real value or a non-finite IEEE
double (NaN, +Inf, -Inf). -/
inductive Entry where
  | fin : ℚ → Entry
  | nan : Entry
  | pinf : Entry
  | ninf : Entry
deriving DecidableEq, Repr

/-- Models std::isfinite: only `Entry.fin` values are finite. -/
def Entry.isFinite : Entry → Bool
  | Entry.fin _ => true
  | _ => false

/-- The numeric value of a cell; non-finite cells have no usable value and
are mapped to 0 (the code never reads the value of a non-finite cell). -/
def Entry.val : Entry → ℚ
  | Entry.fin x => x
  | _ => 0

/-- arma::find_finite on a row: ascending list of column indices holding
finite values. -/
def findFinite {P : ℕ} (row : Fin P → Entry) : List (Fin P) :=
  (List.finRange P).filter (fun j => (row j).isFinite)

/-- arma::find_nonfinite on a row: ascending list of column indices holding
non-finite values. -/
def findNonfinite {P : ℕ} (row : Fin P → Entry) : List (Fin P) :=
  (List.finRange P).filter (fun j => !(row j).isFinite)

/-- arma submat(r, c): the submatrix of `K` picking rows `r` and columns `c`
(in order). -/
def submat {P : ℕ} (K : Matrix (Fin P) (Fin P) ℚ) (r c : List (Fin P)) :
    Matrix (Fin r.length) (Fin c.length) ℚ :=
  fun a b => K (r.get a) (c.get b)

/-- arma subvector μ(r): entries of `μ` at the indices in `r`. -/
def subvec {P : ℕ} (μ : Fin P → ℚ) (r : List (Fin P)) : Fin r.length → ℚ :=
  fun a => μ (r.get a)

/-- Computable matrix inverse over ℚ via the adjugate; meaningful only when
the determinant is nonzero (the guarded callers check this). -/
def minv {n : ℕ} (A : Matrix (Fin n) (Fin n) ℚ) : Matrix (Fin n) (Fin n) ℚ :=
  (A.det)⁻¹ • A.adjugate

theorem minv_mul {n : ℕ} (A : Matrix (Fin n) (Fin n) ℚ) (h : A.det ≠ 0) :
    minv A * A = 1 := by
  unfold minv
  rw [Matrix.smul_mul, Matrix.adjugate_mul, smul_smul, inv_mul_cancel₀ h, one_smul]

theorem minv_eq_nonsing_inv {n : ℕ} (A : Matrix (Fin n) (Fin n) ℚ) (h : A.det ≠ 0) :
    minv A = A⁻¹ := by
  have hu : IsUnit A.det := isUnit_iff_ne_zero.mpr h
  rw [Matrix.inv_def, Ring.inverse_eq_inv]
  rfl

/-- The position of `j` inside an index list `l` containing it. -/
def posIn {P : ℕ} (l : List (Fin P)) (j : Fin P) (h : j ∈ l) : Fin l.length :=
  ⟨l.indexOf j, List.indexOf_lt_length.mpr h⟩

/-- Body of the row loop of `imp1matprec`: the row with its non-finite
entries overwritten by
`(muest(im) - inv(kest.submat(im,im)) * kest.submat(im,io) * (d.submat(idx,io).t() - muest(io))).t()`,
written as a total function (the caller guards the inversion). -/
def imputeRowT {P : ℕ} (muest : Fin P → ℚ) (kest : Matrix (Fin P) (Fin P) ℚ)
    (row : Fin P → Entry) : Fin P → ℚ :=
  let io := findFinite row
  let im := findNonfinite row
  let xhat : Fin im.length → ℚ := fun a =>
    subvec muest im a -
      (minv (submat kest im im) * submat kest im io).mulVec
        (fun b => (row (io.get b)).val - subvec muest io b) a
  fun j => if h : j ∈ im then xhat (posIn im j h) else (row j).val

/-- One row of `imp1matprec`, with Armadillo's `inv` failure on a singular
`kest.submat(im,im)` surfaced as `none`. -/
def imputeRow {P : ℕ} (muest : Fin P → ℚ) (kest : Matrix (Fin P) (Fin P) ℚ)
    (row : Fin P → Entry) : Option (Fin P → ℚ) :=
  if (submat kest (findNonfinite row) (findNonfinite row)).det = 0 then none
  else some (imputeRowT muest kest row)

/-- imp1matprec: first part of the E step.  Copies D and replaces, row by
row, the non-finite entries by the Gaussian conditional mean; `none` models
the exception thrown when some row's `kest.submat(im,im)` is singular. -/
def imp1matprec {N P : ℕ} (D : Fin N → Fin P → Entry) (muest : Fin P → ℚ)
    (kest : Matrix (Fin P) (Fin P) ℚ) : Option (Matrix (Fin N) (Fin P) ℚ) :=
  if _h : ∀ i : Fin N, (submat kest (findNonfinite (D i)) (findNonfinite (D i))).det ≠ 0 then
    some (fun i => imputeRowT muest kest (D i))
  else none

theorem mem_findFinite {P : ℕ} {row : Fin P → Entry} {j : Fin P} :
    j ∈ findFinite row ↔ (row j).isFinite = true := by
  simp [findFinite, List.mem_filter, List.mem_finRange]

theorem mem_findNonfinite {P : ℕ} {row : Fin P → Entry} {j : Fin P} :
    j ∈ findNonfinite row ↔ (row j).isFinite = false := by
  simp [findNonfinite, List.mem_filter, List.mem_finRange]

theorem det_submat_nil {P : ℕ} (K : Matrix (Fin P) (Fin P) ℚ) :
    (submat K ([] : List (Fin P)) []).det = 1 :=
  Matrix.det_fin_zero

theorem det_submat_singleton {P : ℕ} (K : Matrix (Fin P) (Fin P) ℚ) (a b : Fin P) :
    (submat K [a] [b]).det = K a b :=
  Matrix.det_fin_one _

/-- The spec's conditional mean for the missing block of a row, written from
the spec's words: x̂_m = μ_m − K_mm⁻¹ · K_mo · (x_o − μ_o), where μ_o/μ_m are
the observed/missing sub-vectors of μ and K_mm, K_mo the corresponding blocks
of the precision matrix. -/
def condMeanSpec {P : ℕ} (μ : Fin P → ℚ) (K : Matrix (Fin P) (Fin P) ℚ)
    (row : Fin P → Entry) : Fin (findNonfinite row).length → ℚ :=
  fun a =>
    subvec μ (findNonfinite row) a -
      (minv (submat K (findNonfinite row) (findNonfinite row)) *
          submat K (findNonfinite row) (findFinite row)).mulVec
        (fun b => (row ((findFinite row).get b)).val - subvec μ (findFinite row) b) a

/-- C1: for every row with nonempty missing and observed sets, `imp1matprec`
replaces the missing entries with the Gaussian conditional mean
x̂_m = μ_m − K_mm⁻¹ · K_mo · (x_o − μ_o) and leaves observed entries
unchanged. -/
theorem imp1matprec_conditional_mean {N P : ℕ} (D : Fin N → Fin P → Entry)
    (μ : Fin P → ℚ) (K : Matrix (Fin P) (Fin P) ℚ)
    (hdet : ∀ i : Fin N, (submat K (findNonfinite (D i)) (findNonfinite (D i))).det ≠ 0)
    (i : Fin N) (hm : findNonfinite (D i) ≠ []) (ho : findFinite (D i) ≠ []) :
    ∃ M, imp1matprec D μ K = some M ∧
      (∀ j (hj : j ∈ findNonfinite (D i)),
        M i j = condMeanSpec μ K (D i) (posIn (findNonfinite (D i)) j hj)) ∧
      (∀ j ∈ findFinite (D i), M i j = (D i j).val) := by
  refine ⟨fun i => imputeRowT μ K (D i), by rw [imp1matprec, dif_pos hdet], ?_, ?_⟩
  · intro j hj
    simp only [imputeRowT, dif_pos hj]
    rfl
  · intro j hj
    have hnm : j ∉ findNonfinite (D i) := by
      rw [mem_findNonfinite]
      rw [mem_findFinite] at hj
      simp [hj]
    simp only [imputeRowT, dif_neg hnm]

def D1w : Fin 1 → Fin 2 → Entry := ![![Entry.fin 1, Entry.nan]]

def mu1w : Fin 2 → ℚ := ![5, 7]

def K1w : Matrix (Fin 2) (Fin 2) ℚ := !![2, 1; 1, 2]

/-- Witness for C1 at a concrete 1×2 data matrix with one missing cell. -/
theorem imp1matprec_conditional_mean_witness :
    (∀ i : Fin 1, (submat K1w (findNonfinite (D1w i)) (findNonfinite (D1w i))).det ≠ 0) ∧
    findNonfinite (D1w 0) ≠ [] ∧ findFinite (D1w 0) ≠ [] ∧
    (∃ M, imp1matprec D1w mu1w K1w = some M ∧
      (∀ j (hj : j ∈ findNonfinite (D1w 0)),
        M 0 j = condMeanSpec mu1w K1w (D1w 0) (posIn (findNonfinite (D1w 0)) j hj)) ∧
      (∀ j ∈ findFinite (D1w 0), M 0 j = (D1w 0 j).val)) := by
  have hdet : ∀ i : Fin 1,
      (submat K1w (findNonfinite (D1w i)) (findNonfinite (D1w i))).det ≠ 0 := by
    intro i
    have hi : i = 0 := Subsingleton.elim i 0
    subst hi
    show (submat K1w [1] [1]).det ≠ 0
    rw [det_submat_singleton]
    decide
  exact ⟨hdet, by decide, by decide,
    imp1matprec_conditional_mean D1w mu1w K1w hdet 0 (by decide) (by decide)⟩

theorem get_posIn {P : ℕ} (l : List (Fin P)) (j : Fin P) (h : j ∈ l) :
    l.get (posIn l j h) = j :=
  List.indexOf_get _

/-- C7: rows with all columns missing are imputed to μ; rows with no missing
column are returned unchanged. -/
theorem imp1matprec_edge_rows {N P : ℕ} (D : Fin N → Fin P → Entry)
    (μ : Fin P → ℚ) (K : Matrix (Fin P) (Fin P) ℚ)
    (hdet : ∀ i : Fin N, (submat K (findNonfinite (D i)) (findNonfinite (D i))).det ≠ 0)
    (i : Fin N) :
    ∃ M, imp1matprec D μ K = some M ∧
      (findFinite (D i) = [] → ∀ j, M i j = μ j) ∧
      (findNonfinite (D i) = [] → ∀ j, M i j = (D i j).val) := by
  refine ⟨fun i => imputeRowT μ K (D i), by rw [imp1matprec, dif_pos hdet], ?_, ?_⟩
  · intro h0 j
    have hj : j ∈ findNonfinite (D i) := by
      rw [mem_findNonfinite]
      by_contra hc
      have : j ∈ findFinite (D i) := mem_findFinite.mpr (by
        cases hfin : (D i j).isFinite
        · exact absurd hfin hc
        · rfl)
      rw [h0] at this
      exact absurd this (List.not_mem_nil j)
    haveI hE : IsEmpty (Fin (findFinite (D i)).length) := by
      rw [h0]
      exact Fin.isEmpty
    simp only [imputeRowT, dif_pos hj]
    have hsum :
        (minv (submat K (findNonfinite (D i)) (findNonfinite (D i))) *
            submat K (findNonfinite (D i)) (findFinite (D i))).mulVec
          (fun b => (D i ((findFinite (D i)).get b)).val - subvec μ (findFinite (D i)) b)
          (posIn (findNonfinite (D i)) j hj) = 0 := by
      rw [Matrix.mulVec, Matrix.dotProduct, Finset.univ_eq_empty, Finset.sum_empty]
    rw [hsum, sub_zero, subvec, get_posIn]
  · intro h0 j
    have hnm : j ∉ findNonfinite (D i) := by
      rw [h0]
      exact List.not_mem_nil j
    simp only [imputeRowT, dif_neg hnm]

def D7w : Fin 2 → Fin 1 → Entry := ![![Entry.nan], ![Entry.fin 5]]

def mu7w : Fin 1 → ℚ := ![3]

def K7w : Matrix (Fin 1) (Fin 1) ℚ := !![2]

/-- Witness for C7: an all-missing row and a fully-observed row. -/
theorem imp1matprec_edge_rows_witness :
    (∀ i : Fin 2, (submat K7w (findNonfinite (D7w i)) (findNonfinite (D7w i))).det ≠ 0) ∧
    (∃ M, imp1matprec D7w mu7w K7w = some M ∧
      (findFinite (D7w 0) = [] → ∀ j, M 0 j = mu7w j) ∧
      (findNonfinite (D7w 0) = [] → ∀ j, M 0 j = (D7w 0 j).val)) ∧
    (∃ M, imp1matprec D7w mu7w K7w = some M ∧
      (findFinite (D7w 1) = [] → ∀ j, M 1 j = mu7w j) ∧
      (findNonfinite (D7w 1) = [] → ∀ j, M 1 j = (D7w 1 j).val)) := by
  have hdet : ∀ i : Fin 2,
      (submat K7w (findNonfinite (D7w i)) (findNonfinite (D7w i))).det ≠ 0 := by
    intro i
    fin_cases i
    · show (submat K7w [0] [0]).det ≠ 0
      rw [det_submat_singleton]
      decide
    · show (submat K7w ([] : List (Fin 1)) []).det ≠ 0
      rw [det_submat_nil]
      decide
  exact ⟨hdet, imp1matprec_edge_rows D7w mu7w K7w hdet 0,
    imp1matprec_edge_rows D7w mu7w K7w hdet 1⟩

/-- The per-row, per-entry correction of `imp2matprec`: the meaning of
`t2.submat(im,im) += inv(kest.submat(im,im))` at entry (j, k), the missing
index lists having no duplicates. -/
def corrT2 {P : ℕ} (kest : Matrix (Fin P) (Fin P) ℚ) (row : Fin P → Entry)
    (j k : Fin P) : ℚ :=
  if hj : j ∈ findNonfinite row then
    if hk : k ∈ findNonfinite row then
      minv (submat kest (findNonfinite row) (findNonfinite row))
        (posIn (findNonfinite row) j hj) (posIn (findNonfinite row) k hk)
    else 0
  else 0

/-- Body of the row loop of `imp2matprec`, as a total function. -/
def imp2RowT {P : ℕ} (kest : Matrix (Fin P) (Fin P) ℚ) (row : Fin P → Entry)
    (t2 : Matrix (Fin P) (Fin P) ℚ) : Matrix (Fin P) (Fin P) ℚ :=
  fun j k => t2 j k + corrT2 kest row j k

/-- One row of `imp2matprec`; `none` models Armadillo's exception when
`kest.submat(im,im)` is singular. -/
def imp2Row {P : ℕ} (kest : Matrix (Fin P) (Fin P) ℚ) (row : Fin P → Entry)
    (t2 : Matrix (Fin P) (Fin P) ℚ) : Option (Matrix (Fin P) (Fin P) ℚ) :=
  if (submat kest (findNonfinite row) (findNonfinite row)).det = 0 then none
  else some (imp2RowT kest row t2)

/-- imp2matprec: second part of the E step, adding `inv(kest.submat(im,im))`
into the missing×missing block of `t2`, in place, row after row. -/
def imp2matprec {N P : ℕ} (D : Fin N → Fin P → Entry)
    (kest : Matrix (Fin P) (Fin P) ℚ) (t2 : Matrix (Fin P) (Fin P) ℚ) :
    Option (Matrix (Fin P) (Fin P) ℚ) :=
  (List.finRange N).foldlM (fun acc i => imp2Row kest (D i) acc) t2

theorem imp2matprec_foldl {N P : ℕ} (D : Fin N → Fin P → Entry)
    (kest : Matrix (Fin P) (Fin P) ℚ) (l : List (Fin N))
    (h : ∀ i ∈ l, (submat kest (findNonfinite (D i)) (findNonfinite (D i))).det ≠ 0)
    (t2 : Matrix (Fin P) (Fin P) ℚ) :
    l.foldlM (fun acc i => imp2Row kest (D i) acc) t2 =
      some (fun j k => t2 j k + (l.map (fun i => corrT2 kest (D i) j k)).sum) := by
  induction l generalizing t2 with
  | nil => simp
  | cons a l ih =>
      rw [List.foldlM_cons, imp2Row, if_neg (h a (List.mem_cons_self a l))]
      have hbind : ∀ (x : Matrix (Fin P) (Fin P) ℚ)
          (g : Matrix (Fin P) (Fin P) ℚ → Option (Matrix (Fin P) (Fin P) ℚ)),
          (some x >>= g) = g x := fun _ _ => rfl
      rw [hbind, ih (fun i hi => h i (List.mem_cons_of_mem a hi))]
      refine congrArg some (funext fun j => funext fun k => ?_)
      rw [imp2RowT, List.map_cons, List.sum_cons, add_assoc]

/-- C3: the function `imp2matprec` adds, for every row with nonempty missing set, exactly
inv(K_mm) into the missing×missing block of T2, accumulated in place across
rows; rows with empty missing set contribute nothing, and entries outside
the touched blocks are unchanged. -/
theorem imp2matprec_correction {N P : ℕ} (D : Fin N → Fin P → Entry)
    (kest : Matrix (Fin P) (Fin P) ℚ) (t2 : Matrix (Fin P) (Fin P) ℚ)
    (hdet : ∀ i : Fin N, (submat kest (findNonfinite (D i)) (findNonfinite (D i))).det ≠ 0) :
    ∃ t2p, imp2matprec D kest t2 = some t2p ∧
      (∀ j k, t2p j k = t2 j k + ∑ i : Fin N, corrT2 kest (D i) j k) ∧
      (∀ i j k, findNonfinite (D i) = [] → corrT2 kest (D i) j k = 0) ∧
      (∀ i j k, j ∉ findNonfinite (D i) ∨ k ∉ findNonfinite (D i) →
        corrT2 kest (D i) j k = 0) ∧
      (∀ i j k (hj : j ∈ findNonfinite (D i)) (hk : k ∈ findNonfinite (D i)),
        corrT2 kest (D i) j k =
          minv (submat kest (findNonfinite (D i)) (findNonfinite (D i)))
            (posIn (findNonfinite (D i)) j hj) (posIn (findNonfinite (D i)) k hk)) := by
  refine ⟨_, imp2matprec_foldl D kest (List.finRange N) (fun i _ => hdet i) t2,
    fun j k => ?_, fun i j k h0 => ?_, fun i j k hor => ?_, fun i j k hj hk => ?_⟩
  · rw [Fin.sum_univ_def]
  · rw [corrT2]
    rw [h0]
    simp
  · rcases hor with hj | hk
    · rw [corrT2, dif_neg hj]
    · simp [corrT2, hk]
  · rw [corrT2, dif_pos hj, dif_pos hk]

def D3w : Fin 1 → Fin 2 → Entry := ![![Entry.nan, Entry.fin 4]]

def K3w : Matrix (Fin 2) (Fin 2) ℚ := !![3, 1; 1, 3]

def T2w : Matrix (Fin 2) (Fin 2) ℚ := !![0, 0; 0, 0]

/-- Witness for C3 at a concrete one-row matrix with one missing cell. -/
theorem imp2matprec_correction_witness :
    (∀ i : Fin 1, (submat K3w (findNonfinite (D3w i)) (findNonfinite (D3w i))).det ≠ 0) ∧
    (∃ t2p, imp2matprec D3w K3w T2w = some t2p ∧
      (∀ j k, t2p j k = T2w j k + ∑ i : Fin 1, corrT2 K3w (D3w i) j k) ∧
      (∀ i j k, findNonfinite (D3w i) = [] → corrT2 K3w (D3w i) j k = 0) ∧
      (∀ i j k, j ∉ findNonfinite (D3w i) ∨ k ∉ findNonfinite (D3w i) →
        corrT2 K3w (D3w i) j k = 0) ∧
      (∀ i j k (hj : j ∈ findNonfinite (D3w i)) (hk : k ∈ findNonfinite (D3w i)),
        corrT2 K3w (D3w i) j k =
          minv (submat K3w (findNonfinite (D3w i)) (findNonfinite (D3w i)))
            (posIn (findNonfinite (D3w i)) j hj) (posIn (findNonfinite (D3w i)) k hk))) := by
  have hdet : ∀ i : Fin 1,
      (submat K3w (findNonfinite (D3w i)) (findNonfinite (D3w i))).det ≠ 0 := by
    intro i
    have hi : i = 0 := Subsingleton.elim i 0
    subst hi
    show (submat K3w [0] [0]).det ≠ 0
    rw [det_submat_singleton]
    decide
  exact ⟨hdet, imp2matprec_correction D3w K3w T2w hdet⟩

/-- The completed (imputed) matrix produced by the first E-step pass, as a
total function (the value of `imp1matprec` whenever it succeeds). -/
def completedMat {N P : ℕ} (D : Fin N → Fin P → Entry) (muest : Fin P → ℚ)
    (kest : Matrix (Fin P) (Fin P) ℚ) : Matrix (Fin N) (Fin P) ℚ :=
  fun i => imputeRowT muest kest (D i)

theorem imp1matprec_eq_completedMat {N P : ℕ} (D : Fin N → Fin P → Entry)
    (muest : Fin P → ℚ) (kest : Matrix (Fin P) (Fin P) ℚ)
    (hdet : ∀ i : Fin N, (submat kest (findNonfinite (D i)) (findNonfinite (D i))).det ≠ 0) :
    imp1matprec D muest kest = some (completedMat D muest kest) := by
  rw [imp1matprec, dif_pos hdet]
  rfl

/-- EMcycleprec: one full EM cycle.  T1 = dimpᵗ·1, T2 = dimpᵗ·dimp plus the
imp2matprec corrections, then μ_new = T1/N, S_new = T2/N − μ_new·μ_newᵗ,
K_new = inv(S_new); `none` models any of the inversion failures. -/
def EMcycleprec {N P : ℕ} (D : Fin N → Fin P → Entry) (muest : Fin P → ℚ)
    (kest : Matrix (Fin P) (Fin P) ℚ) :
    Option ((Fin P → ℚ) × Matrix (Fin P) (Fin P) ℚ × Matrix (Fin P) (Fin P) ℚ) :=
  (imp1matprec D muest kest).bind fun dimp =>
    (imp2matprec D kest (dimp.transpose * dimp)).bind fun t2 =>
      let t1 : Fin P → ℚ := dimp.transpose.mulVec (fun _ => 1)
      let newmu : Fin P → ℚ := fun j => t1 j / (N : ℚ)
      let newS : Matrix (Fin P) (Fin P) ℚ := fun j k => t2 j k / (N : ℚ) - newmu j * newmu k
      if newS.det = 0 then none else some (newmu, newS, minv newS)

/-- The spec's T1: the column-sum vector of the completed matrix. -/
def T1spec {N P : ℕ} (D : Fin N → Fin P → Entry) (muest : Fin P → ℚ)
    (kest : Matrix (Fin P) (Fin P) ℚ) : Fin P → ℚ :=
  fun j => ∑ i : Fin N, completedMat D muest kest i j

/-- The spec's T2: the completed matrix's Gram matrix plus the per-row
conditional-covariance corrections. -/
def T2spec {N P : ℕ} (D : Fin N → Fin P → Entry) (muest : Fin P → ℚ)
    (kest : Matrix (Fin P) (Fin P) ℚ) : Matrix (Fin P) (Fin P) ℚ :=
  fun j k => ((completedMat D muest kest).transpose * completedMat D muest kest) j k +
    ∑ i : Fin N, corrT2 kest (D i) j k

/-- The spec's updated mean: μ_new = T1 / N. -/
def muNewSpec {N P : ℕ} (D : Fin N → Fin P → Entry) (muest : Fin P → ℚ)
    (kest : Matrix (Fin P) (Fin P) ℚ) : Fin P → ℚ :=
  fun j => T1spec D muest kest j / (N : ℚ)

/-- The spec's updated covariance: S_new = T2 / N − μ_new · μ_newᵗ. -/
def SNewSpec {N P : ℕ} (D : Fin N → Fin P → Entry) (muest : Fin P → ℚ)
    (kest : Matrix (Fin P) (Fin P) ℚ) : Matrix (Fin P) (Fin P) ℚ :=
  fun j k => T2spec D muest kest j k / (N : ℚ) -
    muNewSpec D muest kest j * muNewSpec D muest kest k

theorem EMcycleprec_characterization {N P : ℕ} (D : Fin N → Fin P → Entry)
    (muest : Fin P → ℚ) (kest : Matrix (Fin P) (Fin P) ℚ)
    (hdet : ∀ i : Fin N, (submat kest (findNonfinite (D i)) (findNonfinite (D i))).det ≠ 0) :
    EMcycleprec D muest kest =
      if (SNewSpec D muest kest).det = 0 then none
      else some (muNewSpec D muest kest, SNewSpec D muest kest, minv (SNewSpec D muest kest)) := by
  have h2 : imp2matprec D kest
      ((completedMat D muest kest).transpose * completedMat D muest kest) =
      some (T2spec D muest kest) := by
    rw [imp2matprec, imp2matprec_foldl D kest (List.finRange N) (fun i _ => hdet i)]
    refine congrArg some (funext fun j => funext fun k => ?_)
    rw [T2spec, Fin.sum_univ_def]
  have hmu : (fun j => (completedMat D muest kest).transpose.mulVec (fun _ => 1) j / (N : ℚ)) =
      muNewSpec D muest kest := by
    funext j
    rw [muNewSpec, T1spec]
    simp [Matrix.mulVec, Matrix.dotProduct, Matrix.transpose_apply, completedMat]
  have hSeq : (fun j k => T2spec D muest kest j k / (N : ℚ) -
      muNewSpec D muest kest j * muNewSpec D muest kest k) = SNewSpec D muest kest := rfl
  rw [EMcycleprec, imp1matprec_eq_completedMat D muest kest hdet]
  show (imp2matprec D kest _).bind _ = _
  rw [h2]
  show (if _ : _ then _ else _) = _
  rw [hmu]
  simp only [hSeq]
  rw [dite_eq_ite]

/-- C2: one EM cycle returns exactly (T1/N, T2/N − μμᵗ, (T2/N − μμᵗ)⁻¹) with
T1 the column sums of the completed matrix and T2 its Gram matrix plus the
conditional-covariance corrections. -/
theorem EMcycleprec_update {N P : ℕ} (D : Fin N → Fin P → Entry)
    (muest : Fin P → ℚ) (kest : Matrix (Fin P) (Fin P) ℚ)
    (hN : 1 ≤ N)
    (hdet : ∀ i : Fin N, (submat kest (findNonfinite (D i)) (findNonfinite (D i))).det ≠ 0)
    (hS : (SNewSpec D muest kest).det ≠ 0) :
    EMcycleprec D muest kest =
      some (muNewSpec D muest kest, SNewSpec D muest kest, minv (SNewSpec D muest kest)) := by
  rw [EMcycleprec_characterization D muest kest hdet, if_neg hS]

def D2w : Fin 2 → Fin 1 → Entry := ![![Entry.fin 2], ![Entry.fin 4]]

def mu2w : Fin 1 → ℚ := ![0]

def K2w : Matrix (Fin 1) (Fin 1) ℚ := !![1]

/-- Witness for C2 at a concrete fully-observed 2×1 data matrix. -/
theorem EMcycleprec_update_witness :
    1 ≤ 2 ∧
    (∀ i : Fin 2, (submat K2w (findNonfinite (D2w i)) (findNonfinite (D2w i))).det ≠ 0) ∧
    (SNewSpec D2w mu2w K2w).det ≠ 0 ∧
    EMcycleprec D2w mu2w K2w =
      some (muNewSpec D2w mu2w K2w, SNewSpec D2w mu2w K2w, minv (SNewSpec D2w mu2w K2w)) := by
  have hdet : ∀ i : Fin 2,
      (submat K2w (findNonfinite (D2w i)) (findNonfinite (D2w i))).det ≠ 0 := by
    intro i
    fin_cases i
    · show (submat K2w ([] : List (Fin 1)) []).det ≠ 0
      rw [det_submat_nil]
      decide
    · show (submat K2w ([] : List (Fin 1)) []).det ≠ 0
      rw [det_submat_nil]
      decide
  have hS : (SNewSpec D2w mu2w K2w).det ≠ 0 := by
    have h : SNewSpec D2w mu2w K2w 0 0 = 1 := by
      norm_num [SNewSpec, T2spec, T1spec, muNewSpec, completedMat, imputeRowT, corrT2,
        findNonfinite, findFinite, Entry.isFinite, Entry.val, D2w, mu2w, K2w,
        Matrix.mul_apply, Fin.sum_univ_two, List.finRange, List.filter]
    rw [Matrix.det_fin_one, h]
    decide
  exact ⟨by decide, hdet, hS, EMcycleprec_update D2w mu2w K2w (by decide) hdet hS⟩

/-- Body of the row loop of `nllprec`:
`0.5*(log(det(kinv.submat(io,io))) + (x_o − μ_o)ᵗ·inv(kinv.submat(io,io))·(x_o − μ_o) + io.size()*log(2π))`,
with the library primitives `log` and `log(2π)` abstracted as `L` and `c`. -/
def nllRowT {P : ℕ} (L : ℚ → ℚ) (c : ℚ) (muest : Fin P → ℚ)
    (kinv : Matrix (Fin P) (Fin P) ℚ) (row : Fin P → Entry) : ℚ :=
  (1 / 2) * (L (submat kinv (findFinite row) (findFinite row)).det +
    Matrix.dotProduct (fun b => (row ((findFinite row).get b)).val - subvec muest (findFinite row) b)
      ((minv (submat kinv (findFinite row) (findFinite row))).mulVec
        (fun b => (row ((findFinite row).get b)).val - subvec muest (findFinite row) b)) +
    ((findFinite row).length : ℚ) * c)

/-- nllprec: observed-data negative log-likelihood.  The covariance is
obtained by inverting `kest` once up front; `none` models the exception when
`kest` or some per-row `S_oo` is singular. -/
def nllprec {N P : ℕ} (L : ℚ → ℚ) (c : ℚ) (d : Fin N → Fin P → Entry)
    (muest : Fin P → ℚ) (kest : Matrix (Fin P) (Fin P) ℚ) : Option ℚ :=
  if kest.det = 0 then none
  else if _h : ∀ i : Fin N,
      (submat (minv kest) (findFinite (d i)) (findFinite (d i))).det ≠ 0 then
    some (∑ i : Fin N, nllRowT L c muest (minv kest) (d i))
  else none

/-- The spec's per-row likelihood contribution, written from the spec's
words: nll_i = 0.5·(log det(S_oo) + (x_o − μ_o)ᵗ·S_oo⁻¹·(x_o − μ_o) +
|observed(i)|·log(2π)), where `S` is the full covariance and `S_oo` its
observed×observed submatrix. -/
def nllRowSpec {P : ℕ} (L : ℚ → ℚ) (c : ℚ) (muest : Fin P → ℚ)
    (S : Matrix (Fin P) (Fin P) ℚ) (row : Fin P → Entry) : ℚ :=
  (1 / 2) * (L (submat S (findFinite row) (findFinite row)).det +
    Matrix.dotProduct (fun b => (row ((findFinite row).get b)).val - subvec muest (findFinite row) b)
      ((minv (submat S (findFinite row) (findFinite row))).mulVec
        (fun b => (row ((findFinite row).get b)).val - subvec muest (findFinite row) b)) +
    ((findFinite row).length : ℚ) * c)

/-- C4: the function `nllprec` returns the sum over rows of the spec's nll_i, with S_oo a
submatrix of the covariance inv(K) computed once up front; a row with no
observed column contributes 0 (since log 1 = 0). -/
theorem nllprec_row_sum {N P : ℕ} (L : ℚ → ℚ) (c : ℚ) (d : Fin N → Fin P → Entry)
    (muest : Fin P → ℚ) (kest : Matrix (Fin P) (Fin P) ℚ)
    (hK : kest.det ≠ 0)
    (hSoo : ∀ i : Fin N,
      (submat (minv kest) (findFinite (d i)) (findFinite (d i))).det ≠ 0)
    (hL1 : L 1 = 0) :
    nllprec L c d muest kest =
      some (∑ i : Fin N, nllRowSpec L c muest (minv kest) (d i)) ∧
    (∀ i : Fin N, findFinite (d i) = [] →
      nllRowSpec L c muest (minv kest) (d i) = 0) := by
  constructor
  · rw [nllprec, if_neg hK, dif_pos hSoo]
    rfl
  · intro i h0
    haveI hE : IsEmpty (Fin (findFinite (d i)).length) := by
      rw [h0]
      exact Fin.isEmpty
    rw [nllRowSpec, Matrix.det_isEmpty, hL1, Matrix.dotProduct,
      Finset.univ_eq_empty, Finset.sum_empty, h0]
    norm_num

def D4w : Fin 2 → Fin 1 → Entry := ![![Entry.fin 2], ![Entry.nan]]

def mu4w : Fin 1 → ℚ := ![1]

def K4w : Matrix (Fin 1) (Fin 1) ℚ := !![2]

def L4w : ℚ → ℚ := fun x => x - 1

/-- Witness for C4 with an observed row and an all-missing row (the latter
contributing 0). -/
theorem nllprec_row_sum_witness :
    K4w.det ≠ 0 ∧
    (∀ i : Fin 2, (submat (minv K4w) (findFinite (D4w i)) (findFinite (D4w i))).det ≠ 0) ∧
    L4w 1 = 0 ∧
    (nllprec L4w 3 D4w mu4w K4w =
        some (∑ i : Fin 2, nllRowSpec L4w 3 mu4w (minv K4w) (D4w i)) ∧
      (∀ i : Fin 2, findFinite (D4w i) = [] →
        nllRowSpec L4w 3 mu4w (minv K4w) (D4w i) = 0)) := by
  have hK : K4w.det ≠ 0 := by
    rw [Matrix.det_fin_one]
    decide
  have hSoo : ∀ i : Fin 2,
      (submat (minv K4w) (findFinite (D4w i)) (findFinite (D4w i))).det ≠ 0 := by
    intro i
    fin_cases i
    · show (submat (minv K4w) [0] [0]).det ≠ 0
      rw [det_submat_singleton]
      norm_num [minv, Matrix.det_fin_one, Matrix.adjugate_fin_one, Matrix.smul_apply,
        Matrix.one_apply_eq, K4w]
    · show (submat (minv K4w) ([] : List (Fin 1)) []).det ≠ 0
      rw [det_submat_nil]
      decide
  have hL1 : L4w 1 = 0 := by norm_num [L4w]
  exact ⟨hK, hSoo, hL1, nllprec_row_sum L4w 3 D4w mu4w K4w hK hSoo hL1⟩

/-- C9: the function `nllprec` on a row-concatenation is the sum of the two parts (also in
the failure cases), and it is invariant under any permutation of rows. -/
theorem nllprec_additive_perm_invariant {N1 N2 N P : ℕ} (L : ℚ → ℚ) (c : ℚ)
    (d1 : Fin N1 → Fin P → Entry) (d2 : Fin N2 → Fin P → Entry)
    (d : Fin N → Fin P → Entry) (muest : Fin P → ℚ)
    (kest : Matrix (Fin P) (Fin P) ℚ) (σ : Equiv.Perm (Fin N)) :
    nllprec L c (Fin.append d1 d2) muest kest =
      Option.map₂ (· + ·) (nllprec L c d1 muest kest) (nllprec L c d2 muest kest) ∧
    nllprec L c (fun i => d (σ i)) muest kest = nllprec L c d muest kest := by
  constructor
  · by_cases hK : kest.det = 0
    · simp [nllprec, hK]
    · rw [nllprec, nllprec, nllprec, if_neg hK, if_neg hK, if_neg hK]
      by_cases h1 : ∀ i : Fin N1,
          (submat (minv kest) (findFinite (d1 i)) (findFinite (d1 i))).det ≠ 0
      · by_cases h2 : ∀ i : Fin N2,
            (submat (minv kest) (findFinite (d2 i)) (findFinite (d2 i))).det ≠ 0
        · have hall : ∀ i : Fin (N1 + N2),
              (submat (minv kest) (findFinite (Fin.append d1 d2 i))
                (findFinite (Fin.append d1 d2 i))).det ≠ 0 := by
            intro i
            refine Fin.addCases (fun i0 => ?_) (fun i0 => ?_) i
            · rw [Fin.append_left]
              exact h1 i0
            · rw [Fin.append_right]
              exact h2 i0
          rw [dif_pos hall, dif_pos h1, dif_pos h2]
          simp only [Option.map₂, Option.bind_some, Option.map_some]
          refine congrArg some ?_
          rw [Fin.sum_univ_add]
          refine congrArg₂ (· + ·) (Finset.sum_congr rfl fun i0 _ => ?_)
            (Finset.sum_congr rfl fun i0 _ => ?_)
          · rw [show Fin.append d1 d2 (Fin.castAdd N2 i0) = d1 i0 from Fin.append_left d1 d2 i0]
          · rw [show Fin.append d1 d2 (Fin.natAdd N1 i0) = d2 i0 from Fin.append_right d1 d2 i0]
        · have hnall : ¬ ∀ i : Fin (N1 + N2),
              (submat (minv kest) (findFinite (Fin.append d1 d2 i))
                (findFinite (Fin.append d1 d2 i))).det ≠ 0 := by
            intro hall
            refine h2 fun i0 => ?_
            have := hall (Fin.natAdd N1 i0)
            rwa [Fin.append_right] at this
          rw [dif_neg hnall, dif_neg h2]
          cases hd1 : (if _h : ∀ i : Fin N1,
              (submat (minv kest) (findFinite (d1 i)) (findFinite (d1 i))).det ≠ 0 then
              some (∑ i : Fin N1, nllRowT L c muest (minv kest) (d1 i)) else none) with
          | none => rfl
          | some v => rfl
      · have hnall : ¬ ∀ i : Fin (N1 + N2),
            (submat (minv kest) (findFinite (Fin.append d1 d2 i))
              (findFinite (Fin.append d1 d2 i))).det ≠ 0 := by
          intro hall
          refine h1 fun i0 => ?_
          have := hall (Fin.castAdd N2 i0)
          rwa [Fin.append_left] at this
        rw [dif_neg hnall, dif_neg h1]
        rfl
  · by_cases hK : kest.det = 0
    · simp [nllprec, hK]
    · rw [nllprec, nllprec, if_neg hK, if_neg hK]
      have hcond : (∀ i : Fin N,
          (submat (minv kest) (findFinite (d (σ i))) (findFinite (d (σ i)))).det ≠ 0) ↔
          ∀ i : Fin N,
          (submat (minv kest) (findFinite (d i)) (findFinite (d i))).det ≠ 0 := by
        constructor
        · intro h i
          have := h (σ.symm i)
          rwa [Equiv.apply_symm_apply] at this
        · intro h i
          exact h (σ i)
      by_cases h : ∀ i : Fin N,
          (submat (minv kest) (findFinite (d i)) (findFinite (d i))).det ≠ 0
      · rw [dif_pos (hcond.mpr h), dif_pos h]
        refine congrArg some ?_
        exact Equiv.sum_comp σ (fun i => nllRowT L c muest (minv kest) (d i))
      · rw [dif_neg (fun hc => h (hcond.mp hc)), dif_neg h]

theorem imp2matprec_foldl_none {N P : ℕ} (D : Fin N → Fin P → Entry)
    (kest : Matrix (Fin P) (Fin P) ℚ) (l : List (Fin N))
    (h : ∃ i ∈ l, (submat kest (findNonfinite (D i)) (findNonfinite (D i))).det = 0)
    (t2 : Matrix (Fin P) (Fin P) ℚ) :
    l.foldlM (fun acc i => imp2Row kest (D i) acc) t2 = none := by
  induction l generalizing t2 with
  | nil => exact absurd h (by simp)
  | cons a l ih =>
      rw [List.foldlM_cons]
      by_cases ha : (submat kest (findNonfinite (D a)) (findNonfinite (D a))).det = 0
      · rw [imp2Row, if_pos ha]
        rfl
      · rw [imp2Row, if_neg ha]
        have hl : ∃ i ∈ l,
            (submat kest (findNonfinite (D i)) (findNonfinite (D i))).det = 0 := by
          rcases h with ⟨i, hi, hdi⟩
          rcases List.mem_cons.mp hi with rfl | hil
          · exact absurd hdi ha
          · exact ⟨i, hil, hdi⟩
        exact ih hl _

/-- C5 (amended): each operation fails exactly when a matrix actually handed
to `inv` is singular; positive-definiteness is never checked. -/
theorem operations_fail_iff_singular_inversion {N P : ℕ} (D : Fin N → Fin P → Entry)
    (muest : Fin P → ℚ) (kest : Matrix (Fin P) (Fin P) ℚ) (L : ℚ → ℚ) (c : ℚ)
    (t2 : Matrix (Fin P) (Fin P) ℚ) :
    (imp1matprec D muest kest = none ↔
      ∃ i : Fin N, (submat kest (findNonfinite (D i)) (findNonfinite (D i))).det = 0) ∧
    (imp2matprec D kest t2 = none ↔
      ∃ i : Fin N, (submat kest (findNonfinite (D i)) (findNonfinite (D i))).det = 0) ∧
    (nllprec L c D muest kest = none ↔ kest.det = 0 ∨
      ∃ i : Fin N, (submat (minv kest) (findFinite (D i)) (findFinite (D i))).det = 0) ∧
    (EMcycleprec D muest kest = none ↔
      (∃ i : Fin N, (submat kest (findNonfinite (D i)) (findNonfinite (D i))).det = 0) ∨
      (SNewSpec D muest kest).det = 0) := by
  have himp1 : imp1matprec D muest kest = none ↔
      ∃ i : Fin N, (submat kest (findNonfinite (D i)) (findNonfinite (D i))).det = 0 := by
    rw [imp1matprec]
    by_cases h : ∀ i : Fin N,
        (submat kest (findNonfinite (D i)) (findNonfinite (D i))).det ≠ 0
    · rw [dif_pos h]
      simp only [reduceCtorEq, false_iff]
      push_neg
      exact h
    · rw [dif_neg h]
      simp only [true_iff]
      push_neg at h
      exact h
  have himp2 : imp2matprec D kest t2 = none ↔
      ∃ i : Fin N, (submat kest (findNonfinite (D i)) (findNonfinite (D i))).det = 0 := by
    by_cases h : ∀ i : Fin N,
        (submat kest (findNonfinite (D i)) (findNonfinite (D i))).det ≠ 0
    · rw [imp2matprec, imp2matprec_foldl D kest (List.finRange N) (fun i _ => h i)]
      simp only [reduceCtorEq, false_iff]
      push_neg
      exact h
    · push_neg at h
      rcases h with ⟨i, hi⟩
      rw [imp2matprec, imp2matprec_foldl_none D kest (List.finRange N)
        ⟨i, List.mem_finRange i, hi⟩]
      simp only [true_iff]
      exact ⟨i, hi⟩
  refine ⟨himp1, himp2, ?_, ?_⟩
  · rw [nllprec]
    by_cases hK : kest.det = 0
    · simp [hK]
    · rw [if_neg hK]
      by_cases h : ∀ i : Fin N,
          (submat (minv kest) (findFinite (D i)) (findFinite (D i))).det ≠ 0
      · rw [dif_pos h]
        simp only [reduceCtorEq, false_iff]
        push_neg
        exact ⟨hK, h⟩
      · rw [dif_neg h]
        simp only [true_iff]
        push_neg at h
        exact Or.inr h
  · by_cases h : ∀ i : Fin N,
        (submat kest (findNonfinite (D i)) (findNonfinite (D i))).det ≠ 0
    · rw [EMcycleprec_characterization D muest kest h]
      by_cases hS : (SNewSpec D muest kest).det = 0
      · simp only [if_pos hS, true_iff]
        exact Or.inr hS
      · simp only [if_neg hS, reduceCtorEq, false_iff]
        push_neg
        refine ⟨fun i => h i, hS⟩
    · have h1 : imp1matprec D muest kest = none := by
        rw [imp1matprec, dif_neg h]
      rw [EMcycleprec, h1]
      simp only [Option.bind_none -- none.bind = none
        ]
      constructor
      · intro _
        push_neg at h
        exact Or.inl h
      · intro _
        rfl

def D5c : Fin 1 → Fin 2 → Entry := ![![Entry.fin 1, Entry.nan]]

def mu5c : Fin 2 → ℚ := ![0, 0]

def K5c : Matrix (Fin 2) (Fin 2) ℚ := !![1, 0; 0, -1]

/-- C5 counterexample: the matrix `K5c` is indefinite (not positive-definite) yet
invertible, and `imp1matprec` succeeds on it instead of failing. -/
theorem nonposdef_accepted_counterexample :
    ¬ K5c.PosDef ∧ K5c.det ≠ 0 ∧ ∃ M, imp1matprec D5c mu5c K5c = some M := by
  have hdet : ∀ i : Fin 1,
      (submat K5c (findNonfinite (D5c i)) (findNonfinite (D5c i))).det ≠ 0 := by
    intro i
    have hi : i = 0 := Subsingleton.elim i 0
    subst hi
    show (submat K5c [1] [1]).det ≠ 0
    rw [det_submat_singleton]
    decide
  refine ⟨?_, ?_, ⟨_, imp1matprec_eq_completedMat D5c mu5c K5c hdet⟩⟩
  · intro h
    have hx := h.2 ![0, 1] (by decide)
    simp [K5c, Matrix.mulVec, Matrix.dotProduct, Fin.sum_univ_two] at hx
    norm_num at hx
  · rw [Matrix.det_fin_two]
    norm_num [K5c]

theorem findFinite_congr {P : ℕ} {r r' : Fin P → Entry}
    (hf : ∀ j, (r j).isFinite = (r' j).isFinite) : findFinite r = findFinite r' := by
  unfold findFinite
  exact List.filter_congr (fun j _ => hf j)

theorem findNonfinite_congr {P : ℕ} {r r' : Fin P → Entry}
    (hf : ∀ j, (r j).isFinite = (r' j).isFinite) : findNonfinite r = findNonfinite r' := by
  unfold findNonfinite
  exact List.filter_congr (fun j _ => by rw [hf j])

theorem imputeRowT_congr {P : ℕ} (μ : Fin P → ℚ) (K : Matrix (Fin P) (Fin P) ℚ)
    {r r' : Fin P → Entry}
    (hf : ∀ j, (r j).isFinite = (r' j).isFinite)
    (hv : ∀ j, (r j).val = (r' j).val) :
    imputeRowT μ K r = imputeRowT μ K r' := by
  unfold imputeRowT
  rw [findNonfinite_congr hf, findFinite_congr hf]
  simp only [hv]

theorem corrT2_congr {P : ℕ} (K : Matrix (Fin P) (Fin P) ℚ) {r r' : Fin P → Entry}
    (hf : ∀ j, (r j).isFinite = (r' j).isFinite) : corrT2 K r = corrT2 K r' := by
  unfold corrT2
  rw [findNonfinite_congr hf]

theorem imp2Row_congr {P : ℕ} (K : Matrix (Fin P) (Fin P) ℚ) {r r' : Fin P → Entry}
    (hf : ∀ j, (r j).isFinite = (r' j).isFinite) : imp2Row K r = imp2Row K r' := by
  unfold imp2Row imp2RowT
  rw [findNonfinite_congr hf, corrT2_congr K hf]

theorem nllRowT_congr {P : ℕ} (L : ℚ → ℚ) (c : ℚ) (μ : Fin P → ℚ)
    (kinv : Matrix (Fin P) (Fin P) ℚ) {r r' : Fin P → Entry}
    (hf : ∀ j, (r j).isFinite = (r' j).isFinite)
    (hv : ∀ j, (r j).val = (r' j).val) :
    nllRowT L c μ kinv r = nllRowT L c μ kinv r' := by
  unfold nllRowT
  rw [findFinite_congr hf]
  simp only [hv]

theorem imp1matprec_congr {N P : ℕ} {D Dp : Fin N → Fin P → Entry}
    (μ : Fin P → ℚ) (K : Matrix (Fin P) (Fin P) ℚ)
    (hf : ∀ i j, (D i j).isFinite = (Dp i j).isFinite)
    (hv : ∀ i j, (D i j).val = (Dp i j).val) :
    imp1matprec D μ K = imp1matprec Dp μ K := by
  have hcond : (∀ i : Fin N,
      (submat K (findNonfinite (D i)) (findNonfinite (D i))).det ≠ 0) ↔
      (∀ i : Fin N, (submat K (findNonfinite (Dp i)) (findNonfinite (Dp i))).det ≠ 0) := by
    constructor
    · intro h i
      rw [← findNonfinite_congr (hf i)]
      exact h i
    · intro h i
      rw [findNonfinite_congr (hf i)]
      exact h i
  unfold imp1matprec
  by_cases h : ∀ i : Fin N,
      (submat K (findNonfinite (D i)) (findNonfinite (D i))).det ≠ 0
  · rw [dif_pos h, dif_pos (hcond.mp h)]
    refine congrArg some (funext fun i => ?_)
    rw [imputeRowT_congr μ K (hf i) (hv i)]
  · rw [dif_neg h, dif_neg (fun hc => h (hcond.mpr hc))]

theorem imp2matprec_congr {N P : ℕ} {D Dp : Fin N → Fin P → Entry}
    (K : Matrix (Fin P) (Fin P) ℚ) (t2 : Matrix (Fin P) (Fin P) ℚ)
    (hf : ∀ i j, (D i j).isFinite = (Dp i j).isFinite) :
    imp2matprec D K t2 = imp2matprec Dp K t2 := by
  unfold imp2matprec
  rw [show (fun acc i => imp2Row K (D i) acc) = (fun acc i => imp2Row K (Dp i) acc) from
    funext fun acc => funext fun i => by rw [imp2Row_congr K (hf i)]]

theorem nllprec_congr {N P : ℕ} (L : ℚ → ℚ) (c : ℚ) {D Dp : Fin N → Fin P → Entry}
    (μ : Fin P → ℚ) (K : Matrix (Fin P) (Fin P) ℚ)
    (hf : ∀ i j, (D i j).isFinite = (Dp i j).isFinite)
    (hv : ∀ i j, (D i j).val = (Dp i j).val) :
    nllprec L c D μ K = nllprec L c Dp μ K := by
  unfold nllprec
  by_cases hK : K.det = 0
  · rw [if_pos hK, if_pos hK]
  · rw [if_neg hK, if_neg hK]
    have hcond : (∀ i : Fin N,
        (submat (minv K) (findFinite (D i)) (findFinite (D i))).det ≠ 0) ↔
        (∀ i : Fin N, (submat (minv K) (findFinite (Dp i)) (findFinite (Dp i))).det ≠ 0) := by
      constructor
      · intro h i
        rw [← findFinite_congr (hf i)]
        exact h i
      · intro h i
        rw [findFinite_congr (hf i)]
        exact h i
    by_cases h : ∀ i : Fin N,
        (submat (minv K) (findFinite (D i)) (findFinite (D i))).det ≠ 0
    · rw [dif_pos h, dif_pos (hcond.mp h)]
      refine congrArg some (Finset.sum_congr rfl fun i _ => ?_)
      exact nllRowT_congr L c μ (minv K) (hf i) (hv i)
    · rw [dif_neg h, dif_neg (fun hc => h (hcond.mpr hc))]

theorem EMcycleprec_congr {N P : ℕ} {D Dp : Fin N → Fin P → Entry}
    (μ : Fin P → ℚ) (K : Matrix (Fin P) (Fin P) ℚ)
    (hf : ∀ i j, (D i j).isFinite = (Dp i j).isFinite)
    (hv : ∀ i j, (D i j).val = (Dp i j).val) :
    EMcycleprec D μ K = EMcycleprec Dp μ K := by
  unfold EMcycleprec
  rw [imp1matprec_congr μ K hf hv]
  refine congrArg _ (funext fun dimp => ?_)
  rw [imp2matprec_congr K (dimp.transpose * dimp) hf]

/-- C10: a cell is classified missing iff its value is non-finite — NaN,
+Inf and −Inf are treated identically — and every operation depends on its
data matrix only through that classification and the finite values. -/
theorem missing_iff_nonfinite {N P : ℕ} (D Dp : Fin N → Fin P → Entry)
    (μ : Fin P → ℚ) (K : Matrix (Fin P) (Fin P) ℚ) (L : ℚ → ℚ) (c : ℚ)
    (t2 : Matrix (Fin P) (Fin P) ℚ)
    (hf : ∀ i j, (D i j).isFinite = (Dp i j).isFinite)
    (hv : ∀ i j, (D i j).val = (Dp i j).val) :
    (∀ (row : Fin P → Entry) (j : Fin P),
      (j ∈ findNonfinite row ↔
        row j = Entry.nan ∨ row j = Entry.pinf ∨ row j = Entry.ninf) ∧
      (j ∈ findFinite row ↔ ∃ q, row j = Entry.fin q)) ∧
    imp1matprec D μ K = imp1matprec Dp μ K ∧
    imp2matprec D K t2 = imp2matprec Dp K t2 ∧
    EMcycleprec D μ K = EMcycleprec Dp μ K ∧
    nllprec L c D μ K = nllprec L c Dp μ K := by
  refine ⟨fun row j => ⟨?_, ?_⟩, imp1matprec_congr μ K hf hv,
    imp2matprec_congr K t2 hf, EMcycleprec_congr μ K hf hv, nllprec_congr L c μ K hf hv⟩
  · rw [mem_findNonfinite]
    cases h : row j <;> simp [Entry.isFinite]
  · rw [mem_findFinite]
    cases h : row j <;> simp [Entry.isFinite]

def D10a : Fin 1 → Fin 2 → Entry := ![![Entry.fin 1, Entry.nan]]

def D10b : Fin 1 → Fin 2 → Entry := ![![Entry.fin 1, Entry.pinf]]

def mu10w : Fin 2 → ℚ := ![0, 0]

def K10w : Matrix (Fin 2) (Fin 2) ℚ := !![2, 1; 1, 2]

/-- Witness for C10: replacing a NaN cell by +Inf changes no operation. -/
theorem missing_iff_nonfinite_witness :
    (∀ (i : Fin 1) (j : Fin 2), (D10a i j).isFinite = (D10b i j).isFinite) ∧
    (∀ (i : Fin 1) (j : Fin 2), (D10a i j).val = (D10b i j).val) ∧
    ((∀ (row : Fin 2 → Entry) (j : Fin 2),
      (j ∈ findNonfinite row ↔
        row j = Entry.nan ∨ row j = Entry.pinf ∨ row j = Entry.ninf) ∧
      (j ∈ findFinite row ↔ ∃ q, row j = Entry.fin q)) ∧
    imp1matprec D10a mu10w K10w = imp1matprec D10b mu10w K10w ∧
    imp2matprec D10a K10w 0 = imp2matprec D10b K10w 0 ∧
    EMcycleprec D10a mu10w K10w = EMcycleprec D10b mu10w K10w ∧
    nllprec (fun x => x) 1 D10a mu10w K10w = nllprec (fun x => x) 1 D10b mu10w K10w) := by
  have hf : ∀ (i : Fin 1) (j : Fin 2), (D10a i j).isFinite = (D10b i j).isFinite := by decide
  have hv : ∀ (i : Fin 1) (j : Fin 2), (D10a i j).val = (D10b i j).val := by decide
  exact ⟨hf, hv, missing_iff_nonfinite D10a D10b mu10w K10w (fun x => x) 1 0 hf hv⟩

/-- Row body of `imp1matprec` with the mean passed as it truly arrives from
the caller: a raw vector of arbitrary length.  Armadillo performs no upfront
shape validation; element accesses `muest(i)` are bounds-checked at the
point of use (`none` models the thrown error), and entries of `muest` never
accessed are silently ignored. -/
def imputeRowU {P : ℕ} (muest : List ℚ) (kest : Matrix (Fin P) (Fin P) ℚ)
    (row : Fin P → Entry) : Option (Fin P → ℚ) :=
  if (∀ j ∈ findNonfinite row, (j : ℕ) < muest.length) ∧
      (∀ j ∈ findFinite row, (j : ℕ) < muest.length) then
    if (submat kest (findNonfinite row) (findNonfinite row)).det = 0 then none
    else some (fun j =>
      if hj : j ∈ findNonfinite row then
        (fun a => muest.getD ((findNonfinite row).get a : Fin P) 0 -
          (minv (submat kest (findNonfinite row) (findNonfinite row)) *
              submat kest (findNonfinite row) (findFinite row)).mulVec
            (fun b => (row ((findFinite row).get b)).val -
              muest.getD ((findFinite row).get b : Fin P) 0) a)
          (posIn (findNonfinite row) j hj)
      else (row j).val)
  else none

/-- Variant of `imp1matprec` over a raw mean vector of arbitrary length. -/
def imp1matprecU {N P : ℕ} (D : Fin N → Fin P → Entry) (muest : List ℚ)
    (kest : Matrix (Fin P) (Fin P) ℚ) : Option (Matrix (Fin N) (Fin P) ℚ) :=
  if h : ∀ i : Fin N, (imputeRowU muest kest (D i)).isSome then
    some (fun i => (imputeRowU muest kest (D i)).get (h i))
  else none

def D8c : Fin 1 → Fin 1 → Entry := ![![Entry.fin 1]]

def mu8c : List ℚ := [3, 9]

def K8c : Matrix (Fin 1) (Fin 1) ℚ := !![1]

theorem imputeRowU_D8c : imputeRowU mu8c K8c (D8c 0) = some (fun j => (D8c 0 j).val) := by
  rw [imputeRowU, if_pos (by decide)]
  rw [show (submat K8c (findNonfinite (D8c 0)) (findNonfinite (D8c 0))).det =
    (submat K8c ([] : List (Fin 1)) []).det from rfl, det_submat_nil, if_neg (by norm_num)]
  refine congrArg some (funext fun j => ?_)
  rw [dif_neg (show j ∉ findNonfinite (D8c 0) from by
    have hj : j = 0 := Subsingleton.elim j 0
    subst hj
    decide)]

/-- C8 counterexample: the function `imp1matprec` called with μ of length 2 against a
1-column data matrix (dimensions inconsistent) completes successfully with
no error; the extra entry of μ is silently ignored. -/
theorem shape_mismatch_not_fatal_counterexample :
    mu8c.length ≠ 1 ∧ imp1matprecU D8c mu8c K8c = some (fun i j => (D8c i j).val) := by
  refine ⟨by decide, ?_⟩
  have h : ∀ i : Fin 1, (imputeRowU mu8c K8c (D8c i)).isSome := by
    intro i
    have hi : i = 0 := Subsingleton.elim i 0
    subst hi
    rw [imputeRowU_D8c]
    rfl
  rw [imp1matprecU, dif_pos h]
  refine congrArg some (funext fun i => ?_)
  have hi : i = 0 := Subsingleton.elim i 0
  subst hi
  simp only [imputeRowU_D8c, Option.get_some]

theorem imputeRowU_append {P : ℕ} (muest extra : List ℚ)
    (kest : Matrix (Fin P) (Fin P) ℚ) (row : Fin P → Entry)
    (hlen : ∀ j : Fin P, (j : ℕ) < muest.length) :
    imputeRowU (muest ++ extra) kest row = imputeRowU muest kest row := by
  have hg : ∀ j : Fin P, (muest ++ extra).getD (j : ℕ) 0 = muest.getD (j : ℕ) 0 :=
    fun j => List.getD_append muest extra 0 (j : ℕ) (hlen j)
  have hlen2 : ∀ j : Fin P, (j : ℕ) < (muest ++ extra).length := fun j => by
    rw [List.length_append]
    exact Nat.lt_of_lt_of_le (hlen j) (Nat.le_add_right _ _)
  have h1 : (∀ j ∈ findNonfinite row, (j : ℕ) < (muest ++ extra).length) ∧
      (∀ j ∈ findFinite row, (j : ℕ) < (muest ++ extra).length) :=
    ⟨fun j _ => hlen2 j, fun j _ => hlen2 j⟩
  have h2 : (∀ j ∈ findNonfinite row, (j : ℕ) < muest.length) ∧
      (∀ j ∈ findFinite row, (j : ℕ) < muest.length) :=
    ⟨fun j _ => hlen j, fun j _ => hlen j⟩
  rw [imputeRowU, imputeRowU, if_pos h1, if_pos h2]
  simp only [hg]

/-- C8 (amended): there is no upfront shape validation — `imp1matprec` with
a μ longer than P behaves exactly as with μ truncated to its referenced
prefix, completing without error. -/
theorem imp1matprecU_ignores_extra_mu {N P : ℕ} (D : Fin N → Fin P → Entry)
    (muest extra : List ℚ) (kest : Matrix (Fin P) (Fin P) ℚ)
    (hlen : ∀ j : Fin P, (j : ℕ) < muest.length) :
    imp1matprecU D (muest ++ extra) kest = imp1matprecU D muest kest := by
  rw [imp1matprecU, imp1matprecU]
  have he : ∀ i : Fin N, imputeRowU (muest ++ extra) kest (D i) =
      imputeRowU muest kest (D i) := fun i => imputeRowU_append muest extra kest (D i) hlen
  by_cases h : ∀ i : Fin N, (imputeRowU muest kest (D i)).isSome
  · rw [dif_pos h, dif_pos (fun i => by rw [he i]; exact h i)]
    refine congrArg some (funext fun i => ?_)
    congr 1
    exact he i
  · rw [dif_neg h, dif_neg (fun hc => h (fun i => by rw [← he i]; exact hc i))]

def D8w : Fin 1 → Fin 1 → Entry := ![![Entry.fin 2]]

def K8w : Matrix (Fin 1) (Fin 1) ℚ := !![1]

/-- Witness for the amended C8. -/
theorem imp1matprecU_ignores_extra_mu_witness :
    (∀ j : Fin 1, (j : ℕ) < ([(3 : ℚ)]).length) ∧
    imp1matprecU D8w ([(3 : ℚ)] ++ [9]) K8w = imp1matprecU D8w [(3 : ℚ)] K8w :=
  ⟨by decide, imp1matprecU_ignores_extra_mu D8w [(3 : ℚ)] [9] K8w (by decide)⟩

end EMgaussian
